import Mathlib

/-
Verification development for the chitchat reconciliation core
(src/chitchat/src/state.rs).

The Rust data structures are shallowly embedded:
* `BTreeMap` becomes an association list (`List (κ × β)`); all verified
  properties are stated through `alookup`, so the list order carries no
  semantic weight.  `BTreeMap` guarantees distinct keys; where a property
  needs that representation invariant it appears as a `Nodup` hypothesis.
* `NodeId` is modelled as `Nat` (the source type is an opaque, hashable,
  totally ordered identifier); keys and values stay `String`.
* `u64` / `usize` counters become `Nat` (no property here exercises
  overflow).
* `last_heartbeat : Instant` and the `seed_addrs` watch channel are
  external, real-time collaborators and are not part of the model.
-/

set_option maxRecDepth 4096

namespace Chitchat

abbrev NodeId := Nat
abbrev Version := Nat

structure VersionedValue where
  value : String
  version : Nat
  marked_for_deletion : Bool
deriving DecidableEq, Repr

/-- Lookup in an association list: the first binding of the key, as
`BTreeMap::get`. -/
def alookup {κ β : Type} [DecidableEq κ] : List (κ × β) → κ → Option β
  | [], _ => none
  | p :: rest, k => if p.1 = k then some p.2 else alookup rest k

/-- Insert-or-replace in an association list, as `BTreeMap::insert`
(replace the first binding in place, else append). -/
def upsert {κ β : Type} [DecidableEq κ] : List (κ × β) → κ → β → List (κ × β)
  | [], k, v => [(k, v)]
  | p :: rest, k, v => if p.1 = k then (k, v) :: rest else p :: upsert rest k v

structure NodeState where
  key_values : List (String × VersionedValue)
  max_version : Nat
deriving DecidableEq, Repr

instance : Inhabited NodeState := ⟨{ key_values := [], max_version := 0 }⟩

namespace NodeState

/-- `NodeState::internal_iter_key_values`: all bindings matching the
predicate, tombstones included. -/
def internal_iter_key_values (ns : NodeState)
    (predicate : String → VersionedValue → Bool) :
    List (String × VersionedValue) :=
  ns.key_values.filter (fun p => predicate p.1 p.2)

/-- `NodeState::iter_key_values`: bindings matching the predicate, with
tombstoned entries filtered out. -/
def iter_key_values (ns : NodeState)
    (predicate : String → VersionedValue → Bool) :
    List (String × VersionedValue) :=
  (ns.internal_iter_key_values predicate).filter
    (fun p => !p.2.marked_for_deletion)

/-- `NodeState::iter_stale_key_values`: bindings (tombstones included)
whose version exceeds `floor_version`. -/
def iter_stale_key_values (ns : NodeState) (floor_version : Version) :
    List (String × VersionedValue) :=
  ns.internal_iter_key_values (fun _ vv => floor_version < vv.version)

/-- `NodeState::get_versioned`: raw access, tombstones included. -/
def get_versioned (ns : NodeState) (key : String) : Option VersionedValue :=
  alookup ns.key_values key

/-- `NodeState::get`: `get_versioned` with only the value kept.  Note the
source applies no tombstone filter here. -/
def get (ns : NodeState) (key : String) : Option String :=
  (ns.get_versioned key).map (fun vv => vv.value)

/-- `NodeState::set_with_version` (the caller must pass a version strictly
above `max_version`; the source `assert!` is the lemma
`set_with_version` is only invoked with `max_version + 1` in this file). -/
def set_with_version (ns : NodeState) (key : String) (value : String)
    (version : Version) : NodeState :=
  { max_version := version,
    key_values := upsert ns.key_values key
      { value := value, version := version, marked_for_deletion := false } }

/-- `NodeState::set`. -/
def set (ns : NodeState) (key : String) (value : String) : NodeState :=
  ns.set_with_version key value (ns.max_version + 1)

/-- `NodeState::mark_for_deletion`: always advances `max_version`; only an
existing binding has its flag and version touched. -/
def mark_for_deletion (ns : NodeState) (key : String) : NodeState :=
  let new_version := ns.max_version + 1
  { max_version := new_version,
    key_values :=
      match alookup ns.key_values key with
      | some vv => upsert ns.key_values key
          { vv with marked_for_deletion := true, version := new_version }
      | none => ns.key_values }

/-- `NodeState::gc_keys_marked_for_deletion`: retain every binding that is
not (tombstoned with `version + grace_period < max_version`). -/
def gc_keys_marked_for_deletion (ns : NodeState) (grace_period : Nat) :
    NodeState :=
  { ns with key_values := ns.key_values.filter (fun p =>
      !(p.2.marked_for_deletion && p.2.version + grace_period < ns.max_version)) }

end NodeState

structure ClusterState where
  node_states : List (NodeId × NodeState)
deriving DecidableEq, Repr

/-- A `NodeDelta` is the ordered list of key/value updates for one node
(`Delta::node_deltas` values on the wire, §6 of the spec). -/
abbrev NodeDelta := List (String × VersionedValue)

structure Delta where
  nodes_to_reset : List NodeId
  node_deltas : List (NodeId × NodeDelta)
deriving DecidableEq, Repr

structure Digest where
  node_max_version : List (NodeId × Version)
deriving DecidableEq, Repr

namespace ClusterState

/-- `ClusterState::node_state`. -/
def node_state (s : ClusterState) (node_id : NodeId) : Option NodeState :=
  alookup s.node_states node_id

/-- One iteration of the key/value loop of `ClusterState::apply_delta`:
raise `max_version` to the incoming version, then insert the incoming
value unless the stored version is already `>=` it. -/
def applyKVStep (st : NodeState) (key : String) (vv : VersionedValue) :
    NodeState :=
  { max_version := max st.max_version vv.version,
    key_values :=
      match alookup st.key_values key with
      | some record =>
          if vv.version ≤ record.version then st.key_values
          else upsert st.key_values key vv
      | none => upsert st.key_values key vv }

/-- The inner loop of `ClusterState::apply_delta` over one `NodeDelta`. -/
def applyNodeDelta (ns : NodeState) (node_delta : NodeDelta) : NodeState :=
  node_delta.foldl (fun st p => applyKVStep st p.1 p.2) ns

/-- `ClusterState::apply_delta`: drop every node marked for reset, then
fold each node delta into the (possibly freshly created) node state. -/
def apply_delta (s : ClusterState) (delta : Delta) : ClusterState :=
  let retained := s.node_states.filter
    (fun p => !(delta.nodes_to_reset.contains p.1))
  { node_states := delta.node_deltas.foldl
      (fun m p =>
        let ns := (alookup m p.1).getD default
        upsert m p.1 (applyNodeDelta ns p.2))
      retained }

/-- `ClusterState::compute_digest`. -/
def compute_digest (s : ClusterState) (dead_nodes : List NodeId) : Digest :=
  { node_max_version :=
      (s.node_states.filter (fun p => !(dead_nodes.contains p.1))).map
        (fun p => (p.1, p.2.max_version)) }

/-- `ClusterState::gc_keys_marked_for_deletion`: per-node GC on every
node not in the dead set. -/
def gc_keys_marked_for_deletion (s : ClusterState) (grace_period : Nat)
    (dead_nodes : List NodeId) : ClusterState :=
  { node_states := s.node_states.map (fun p =>
      if dead_nodes.contains p.1 then p
      else (p.1, p.2.gc_keys_marked_for_deletion grace_period)) }

end ClusterState

/-- Modelled from the spec: `DeltaWriter` (§4.4).  The writer's source file
(`delta.rs`) is not under `src/`; only its contract is specified: a byte
budget of `mtu`, `add_node` reserving a node header and refusing iff the
budget would be exceeded, `add_kv` appending to the currently open node
section under the same rule, and `add_node_to_reset` recording a reset
marker (no budget interaction is specified for it).  The spec requires the
byte accounting to mirror an external serializer exactly, so the model
abstracts the per-node and per-key-value byte costs as function
parameters. -/
structure DeltaWriter where
  mtu : Nat
  used : Nat
  nodes_to_reset : List NodeId
  node_deltas : List (NodeId × NodeDelta)

namespace DeltaWriter

/-- Modelled from the spec: `DeltaWriter::with_mtu` initializes an empty
writer with the given byte budget. -/
def with_mtu (mtu : Nat) : DeltaWriter :=
  { mtu := mtu, used := 0, nodes_to_reset := [], node_deltas := [] }

/-- Modelled from the spec: `DeltaWriter::add_node_to_reset` marks a node
for reset on the peer side. -/
def add_node_to_reset (w : DeltaWriter) (n : NodeId) : DeltaWriter :=
  { w with nodes_to_reset := w.nodes_to_reset ++ [n] }

/-- Append one key/value to the section opened last (the section
`DeltaWriter::add_kv` targets). -/
def appendToLast : List (NodeId × NodeDelta) → String × VersionedValue →
    List (NodeId × NodeDelta)
  | [], _ => []
  | [p], kv => [(p.1, p.2 ++ [kv])]
  | p :: q :: rest, kv => p :: appendToLast (q :: rest) kv

/-- Modelled from the spec: `DeltaWriter::add_node` reserves space for a
new node section; refuses iff the header cost would exceed the budget. -/
def add_node (cost_node : NodeId → Nat) (w : DeltaWriter) (n : NodeId) :
    Bool × DeltaWriter :=
  if w.used + cost_node n ≤ w.mtu then
    (true, { w with used := w.used + cost_node n,
                    node_deltas := w.node_deltas ++ [(n, [])] })
  else (false, w)

/-- Modelled from the spec: `DeltaWriter::add_kv` appends to the open node
section; refuses iff the key/value cost would exceed the budget. -/
def add_kv (cost_kv : String → VersionedValue → Nat) (w : DeltaWriter)
    (key : String) (vv : VersionedValue) : Bool × DeltaWriter :=
  if w.used + cost_kv key vv ≤ w.mtu then
    (true, { w with used := w.used + cost_kv key vv,
                    node_deltas := appendToLast w.node_deltas (key, vv) })
  else (false, w)

/-- Finalizing the writer into a `Delta` (`Delta: From<DeltaWriter>`). -/
def toDelta (w : DeltaWriter) : Delta :=
  { nodes_to_reset := w.nodes_to_reset, node_deltas := w.node_deltas }

end DeltaWriter

namespace ClusterState

/-- `digest.node_max_version.get(node_id).cloned().unwrap_or(0)`. -/
def floorOf (digest : Digest) (n : NodeId) : Version :=
  (alookup digest.node_max_version n).getD 0

/-- The floor used by the scan pass of `compute_delta` (lines 237-249):
the digest floor, lowered to 0 when the reset condition fires. -/
def scanFloor (digest : Digest) (grace_period : Nat) (n : NodeId)
    (ns : NodeState) : Version :=
  let floor := floorOf digest n
  if 0 < floor ∧ floor + grace_period < ns.max_version then 0 else floor

/-- The floor recomputed by the write phase of `compute_delta`
(lines 261-266): lowered to 0 whenever `max_version > floor + grace`. -/
def writeFloor (digest : Digest) (grace_period : Nat) (n : NodeId)
    (ns : NodeState) : Version :=
  let floor := floorOf digest n
  if floor + grace_period < ns.max_version then 0 else floor

/-- The reset markers recorded during the scan pass of `compute_delta`:
the source loop calls `add_node_to_reset` for each live node whose digest
floor is positive yet `floor + grace_period < max_version`; the model
renders the same loop as a comprehension over `node_states`. -/
def resetNodes (s : ClusterState) (digest : Digest) (grace_period : Nat)
    (dead_nodes : List NodeId) : List NodeId :=
  s.node_states.filterMap (fun p =>
    if p.1 ∈ dead_nodes then none
    else if 0 < floorOf digest p.1 ∧
        floorOf digest p.1 + grace_period < p.2.max_version then some p.1
    else none)

/-- The `(node, stale count)` pairs the scan pass of `compute_delta`
inserts into `NodeSortedByStaleLength`: live nodes with a positive number
of key/values above the (possibly reset) floor. -/
def staleCandidates (s : ClusterState) (digest : Digest)
    (grace_period : Nat) (dead_nodes : List NodeId) :
    List (NodeId × Nat) :=
  s.node_states.filterMap (fun p =>
    if p.1 ∈ dead_nodes then none
    else
      let c := (p.2.iter_stale_key_values
        (scanFloor digest grace_period p.1 p.2)).length
      if 0 < c then some (p.1, c) else none)

/-- `NodeSortedByStaleLength::into_iter`: pop the distinct stale lengths
in descending order (the `BinaryHeap`), and shuffle the bucket of nodes
sharing each length.  The process-wide RNG is abstracted as the `shuffle`
parameter; theorems assume only that it permutes its input. -/
def nodeOrder (pairs : List (NodeId × Nat))
    (shuffle : List NodeId → List NodeId) : List NodeId :=
  (((pairs.map Prod.snd).dedup).insertionSort (fun a b => b ≤ a)).flatMap
    (fun d => shuffle ((pairs.filter (fun p => p.2 = d)).map Prod.fst))

/-- The inner key/value loop of the write phase: append the sorted stale
key/values one by one, stopping with `false` as soon as the writer
refuses one. -/
def addKVs (cost_kv : String → VersionedValue → Nat) :
    DeltaWriter → List (String × VersionedValue) → Bool × DeltaWriter
  | w, [] => (true, w)
  | w, kv :: rest =>
    match w.add_kv cost_kv kv.1 kv.2 with
    | (false, w') => (false, w')
    | (true, w') => addKVs cost_kv w' rest

/-- `stale_kvs.sort_unstable_by_key(|(_, record)| record.version)`. -/
def sortKVsByVersion (l : List (String × VersionedValue)) :
    List (String × VersionedValue) :=
  l.insertionSort (fun a b => a.2.version ≤ b.2.version)

/-- The write phase of `compute_delta` (lines 256-279).  The two sources
of panic in the source — `self.node_states.get(node_id).unwrap()` and
`assert!(!stale_kvs.is_empty())` — are modelled as `none`. -/
def writePhase (s : ClusterState) (digest : Digest) (grace_period : Nat)
    (cost_node : NodeId → Nat) (cost_kv : String → VersionedValue → Nat) :
    List NodeId → DeltaWriter → Option Delta
  | [], w => some w.toDelta
  | n :: rest, w =>
    match w.add_node cost_node n with
    | (false, w') => some w'.toDelta
    | (true, w') =>
      match s.node_state n with
      | none => none
      | some ns =>
        let staleKVs := ns.iter_stale_key_values
          (writeFloor digest grace_period n ns)
        if staleKVs.isEmpty then none
        else
          match addKVs cost_kv w' (sortKVsByVersion staleKVs) with
          | (false, w'') => some w''.toDelta
          | (true, w'') =>
            writePhase s digest grace_period cost_node cost_kv rest w''

/-- `ClusterState::compute_delta`: the scan pass records reset markers and
stale candidates, the candidates are ordered by `NodeSortedByStaleLength`,
and the write phase fills the MTU budget. -/
def compute_delta (s : ClusterState) (digest : Digest) (mtu : Nat)
    (dead_nodes : List NodeId) (grace_period : Nat)
    (cost_node : NodeId → Nat) (cost_kv : String → VersionedValue → Nat)
    (shuffle : List NodeId → List NodeId) : Option Delta :=
  let w0 : DeltaWriter :=
    { DeltaWriter.with_mtu mtu with
        nodes_to_reset := resetNodes s digest grace_period dead_nodes }
  writePhase s digest grace_period cost_node cost_kv
    (nodeOrder (staleCandidates s digest grace_period dead_nodes) shuffle) w0

end ClusterState

/-- Follows the spec's words (§4.5, for the refinement claim about
`apply_delta`): "If key present with stored version `≥ incoming.version`:
drop silently (obsolete — not an error). Else: insert/replace." -/
def specInsertKV (kvs : List (String × VersionedValue)) (key : String)
    (incoming : VersionedValue) : List (String × VersionedValue) :=
  match alookup kvs key with
  | some stored =>
      if incoming.version ≤ stored.version then kvs
      else upsert kvs key incoming
  | none => upsert kvs key incoming

/-- The largest version carried by a node delta (`max(v.version in
NodeDelta)`; 0 when the delta is empty). -/
def listMaxVersion (node_delta : NodeDelta) : Version :=
  (node_delta.map (fun p => p.2.version)).foldr max 0

/-- Follows the spec's words (§4.5, for the refinement claim about
`apply_delta`): remove every node marked for reset; then for every
`(NodeId, NodeDelta)` get or create the node state, set `max_version :=
max(max_version, max(v.version in NodeDelta))`, and apply each update with
the obsolete-update rule. -/
def ClusterState.apply_delta_spec (s : ClusterState) (delta : Delta) :
    ClusterState :=
  let retained := s.node_states.filter
    (fun p => !(delta.nodes_to_reset.contains p.1))
  { node_states := delta.node_deltas.foldl
      (fun m p =>
        let ns := (alookup m p.1).getD default
        let ns' : NodeState :=
          { max_version := max ns.max_version (listMaxVersion p.2),
            key_values :=
              p.2.foldl (fun kvs q => specInsertKV kvs q.1 q.2)
                ns.key_values }
        upsert m p.1 ns')
      retained }

/-- Per-key view of one `apply_delta` update: keep the stored record
unless the incoming version is strictly greater. -/
def applyKV : Option VersionedValue → VersionedValue → Option VersionedValue
  | none, incoming => some incoming
  | some record, incoming =>
      if incoming.version ≤ record.version then some record
      else some incoming

/-- Folding a stream of incoming values for one key. -/
def pick (stored : Option VersionedValue) (l : List VersionedValue) :
    Option VersionedValue :=
  l.foldl applyKV stored

/-- All key/value updates a delta carries for one node, in order. -/
def kvsFor (d : Delta) (n : NodeId) : NodeDelta :=
  (d.node_deltas.filter (fun p => p.1 = n)).flatMap Prod.snd

/-- Whether a delta carries a section for a node (even an empty one). -/
def mentions (d : Delta) (n : NodeId) : Prop :=
  n ∈ d.node_deltas.map Prod.fst

/-- One node-section step of `apply_delta`, viewed on the optional node
state: get or create the state, then fold the section into it. -/
def applyOptNode (o : Option NodeState) (nd : NodeDelta) :
    Option NodeState :=
  some (ClusterState.applyNodeDelta (o.getD default) nd)

/-- A delta is internally consistent when each node's updates appear in
strictly ascending version order (§5/§8 of the spec). -/
def InternallyConsistent (d : Delta) : Prop :=
  ∀ n ∈ d.node_deltas.map Prod.fst,
    List.Pairwise (fun p q => p.2.version < q.2.version) (kvsFor d n)

/-- Two deltas agree wherever they carry the same version for the same
node and key. -/
def Compatible (d1 d2 : Delta) : Prop :=
  ∀ n ∈ d1.node_deltas.map Prod.fst, ∀ p ∈ kvsFor d1 n, ∀ q ∈ kvsFor d2 n,
    p.1 = q.1 → p.2.version = q.2.version → p.2 = q.2

instance (d : Delta) : Decidable (InternallyConsistent d) := by
  unfold InternallyConsistent
  infer_instance

instance (d1 d2 : Delta) : Decidable (Compatible d1 d2) := by
  unfold Compatible
  infer_instance

/-- Extensional equality of node states: same `max_version`, same stored
record under every key (`BTreeMap` content equality; `last_heartbeat` is
outside the model). -/
def NSEquiv (a b : NodeState) : Prop :=
  a.max_version = b.max_version ∧
  ∀ k, alookup a.key_values k = alookup b.key_values k

/-- Extensional equality of cluster states: the same nodes are known, and
known node states agree extensionally. -/
def CSEquiv (s1 s2 : ClusterState) : Prop :=
  ∀ n, (s1.node_state n = none ∧ s2.node_state n = none) ∨
    ∃ a b, s1.node_state n = some a ∧ s2.node_state n = some b ∧ NSEquiv a b

/-- Invariant of §3/§8: `max_version` bounds every stored version. -/
def VersionsBounded (ns : NodeState) : Prop :=
  ∀ p ∈ ns.key_values, p.2.version ≤ ns.max_version

instance (ns : NodeState) : Decidable (VersionsBounded ns) :=
  List.decidableBAll _ ns.key_values

/-- The §3/§8 invariant over every known node. -/
def ClusterVersionsBounded (s : ClusterState) : Prop :=
  ∀ q ∈ s.node_states, VersionsBounded q.2

instance (s : ClusterState) : Decidable (ClusterVersionsBounded s) :=
  List.decidableBAll _ s.node_states

/-- The stale count the scan pass of `compute_delta` attributes to a node
(0 for an unknown node). -/
def ClusterState.staleCountOf (s : ClusterState) (digest : Digest)
    (grace_period : Nat) (n : NodeId) : Nat :=
  match s.node_state n with
  | some ns =>
      (ns.iter_stale_key_values
        (ClusterState.scanFloor digest grace_period n ns)).length
  | none => 0

instance : IsTotal Nat (fun a b => b ≤ a) :=
  ⟨fun a b => Nat.le_total b a⟩

instance : IsTrans Nat (fun a b => b ≤ a) :=
  ⟨fun _ _ _ h1 h2 => Nat.le_trans h2 h1⟩

instance : IsTotal (String × VersionedValue)
    (fun a b => a.2.version ≤ b.2.version) :=
  ⟨fun a b => Nat.le_total _ _⟩

instance : IsTrans (String × VersionedValue)
    (fun a b => a.2.version ≤ b.2.version) :=
  ⟨fun _ _ _ => Nat.le_trans⟩

theorem alookup_upsert {κ β : Type} [DecidableEq κ] (m : List (κ × β))
    (k : κ) (v : β) (k' : κ) :
    alookup (upsert m k v) k' = if k = k' then some v else alookup m k' := by
  induction m with
  | nil => simp [upsert, alookup]
  | cons p rest ih =>
    by_cases h : p.1 = k
    · simp only [upsert, h, if_pos, alookup]
      by_cases h2 : k = k'
      · simp [h2]
      · simp [h2, h, alookup]
    · simp only [upsert, h, if_neg, not_false_iff, alookup, ih]
      by_cases h2 : p.1 = k'
      · have : ¬ k = k' := fun hk => h (hk ▸ h2)
        simp [h2, this]
      · simp [h2]

theorem mem_upsert {κ β : Type} [DecidableEq κ] {m : List (κ × β)}
    {k : κ} {v : β} {p : κ × β} (hp : p ∈ upsert m k v) :
    p ∈ m ∨ p = (k, v) := by
  induction m with
  | nil =>
    right
    simpa [upsert] using hp
  | cons q rest ih =>
    by_cases h : q.1 = k
    · simp only [upsert, h, if_pos] at hp
      rcases List.mem_cons.1 hp with hp | hp
      · right; exact hp
      · left; exact List.mem_cons_of_mem _ hp
    · simp only [upsert, h, if_neg, not_false_iff, List.mem_cons] at hp
      rcases hp with hp | hp
      · left; simp [hp]
      · rcases ih hp with h2 | h2
        · left; exact List.mem_cons_of_mem _ h2
        · right; exact h2

theorem alookup_eq_some_mem {κ β : Type} [DecidableEq κ]
    {m : List (κ × β)} {k : κ} {v : β} (h : alookup m k = some v) :
    (k, v) ∈ m := by
  induction m with
  | nil => simp [alookup] at h
  | cons p rest ih =>
    rcases p with ⟨k1, v1⟩
    simp only [alookup] at h
    by_cases hk : k1 = k
    · rw [if_pos hk] at h
      subst hk
      cases Option.some.inj h
      exact List.mem_cons_self _ _
    · rw [if_neg hk] at h
      exact List.mem_cons_of_mem _ (ih h)

theorem alookup_isSome {κ β : Type} [DecidableEq κ]
    (m : List (κ × β)) (k : κ) :
    (alookup m k).isSome = true ↔ k ∈ m.map Prod.fst := by
  induction m with
  | nil => simp [alookup]
  | cons p rest ih =>
    by_cases hk : p.1 = k
    · simp [alookup, hk]
    · simp [alookup, hk, ih, Ne.symm hk]

theorem alookup_of_mem_nodup {κ β : Type} [DecidableEq κ]
    {m : List (κ × β)} (hnd : (m.map Prod.fst).Nodup)
    {k : κ} {v : β} (hm : (k, v) ∈ m) : alookup m k = some v := by
  induction m with
  | nil => simp at hm
  | cons p rest ih =>
    simp only [List.map_cons, List.nodup_cons] at hnd
    rcases List.mem_cons.1 hm with hm | hm
    · simp [alookup, ← hm]
    · have hk : ¬ p.1 = k := by
        intro hk
        exact hnd.1 (hk ▸ (List.mem_map.2 ⟨(k, v), hm, rfl⟩))
      simp [alookup, hk, ih hnd.2 hm]

theorem alookup_filter_key {κ β : Type} [DecidableEq κ]
    (g : κ → Bool) (m : List (κ × β)) (k : κ) :
    alookup (m.filter (fun p => g p.1)) k =
      if g k then alookup m k else none := by
  induction m with
  | nil => simp [alookup]
  | cons p rest ih =>
    by_cases hk : p.1 = k
    · subst hk
      by_cases hg : g p.1
      · simp [alookup, hg, List.filter_cons]
      · simp [alookup, hg, List.filter_cons, ih]
    · by_cases hg : g p.1
      · simp [alookup, hg, hk, List.filter_cons, ih]
      · simp [alookup, hg, hk, List.filter_cons, ih]

theorem alookup_map_value {κ β γ : Type} [DecidableEq κ]
    (h : κ → β → γ) (m : List (κ × β)) (k : κ) :
    alookup (m.map (fun p => (p.1, h p.1 p.2))) k =
      (alookup m k).map (h k) := by
  induction m with
  | nil => simp [alookup]
  | cons p rest ih =>
    by_cases hk : p.1 = k
    · subst hk; simp [alookup]
    · simp [alookup, hk, ih]

theorem contains_iff_mem {α : Type} [DecidableEq α] (l : List α) (a : α) :
    l.contains a = true ↔ a ∈ l :=
  List.elem_iff

theorem mem_upsert_key_nodup {κ β : Type} [DecidableEq κ]
    {m : List (κ × β)} (hnd : (m.map Prod.fst).Nodup) {k : κ} {v : β}
    {p : κ × β} (hp : p ∈ upsert m k v) (hk : p.1 = k) : p = (k, v) := by
  induction m with
  | nil => simpa [upsert] using hp
  | cons q rest ih =>
    simp only [List.map_cons, List.nodup_cons] at hnd
    by_cases h : q.1 = k
    · simp only [upsert, h, if_pos] at hp
      rcases List.mem_cons.1 hp with hp | hp
      · exact hp
      · exact absurd (h ▸ hk ▸ List.mem_map.2 ⟨p, hp, rfl⟩) hnd.1
    · simp only [upsert, h, if_neg, not_false_iff, List.mem_cons] at hp
      rcases hp with hp | hp
      · exact absurd (hp ▸ hk) h
      · exact ih hnd.2 hp

/-- C4 counterexample: in the source, `get` has no tombstone filter, so
`set "k" "1"` followed by `mark_for_deletion "k"` leaves `get "k"`
returning `some "1"`, not absent as the claim states. -/
theorem get_after_mark_counterexample :
    (((default : NodeState).set "k" "1").mark_for_deletion "k").get "k"
        = some "1" ∧
    (((default : NodeState).set "k" "1").mark_for_deletion "k").get "k"
        ≠ none := by
  exact ⟨by decide, by decide⟩

/-- C4 (amended): `get` returns the stored value whenever the key is
present in `key_values`, tombstoned or not; `mark_for_deletion k` leaves
`get k` unchanged (so it still returns the previously stored value, not
absent), and the tombstone is hidden only from `iter_key_values`. -/
theorem get_after_mark_for_deletion (ns : NodeState) (k : String)
    (hnd : (ns.key_values.map Prod.fst).Nodup) :
    (ns.mark_for_deletion k).get k = ns.get k ∧
    ∀ predicate, ∀ p ∈ (ns.mark_for_deletion k).iter_key_values predicate,
      p.1 ≠ k := by
  constructor
  · cases hl : alookup ns.key_values k with
    | none =>
      simp [NodeState.get, NodeState.get_versioned,
        NodeState.mark_for_deletion, hl]
    | some vv =>
      simp [NodeState.get, NodeState.get_versioned,
        NodeState.mark_for_deletion, hl, alookup_upsert]
  · intro predicate p hp hk
    simp only [NodeState.iter_key_values, NodeState.internal_iter_key_values,
      List.mem_filter] at hp
    obtain ⟨⟨hmem, -⟩, hflag⟩ := hp
    cases hl : alookup ns.key_values k with
    | none =>
      rw [NodeState.mark_for_deletion] at hmem
      simp only [hl] at hmem
      have : (alookup ns.key_values k).isSome = true :=
        (alookup_isSome _ _).2 (hk ▸ List.mem_map.2 ⟨p, hmem, rfl⟩)
      simp [hl] at this
    | some vv =>
      rw [NodeState.mark_for_deletion] at hmem
      simp only [hl] at hmem
      have := mem_upsert_key_nodup hnd hmem hk
      rw [this] at hflag
      simp at hflag

/-- C4 witness: the amended theorem applied to a node state holding one
key. -/
theorem get_after_mark_for_deletion_witness :
    (((default : NodeState).set "a" "1").mark_for_deletion "a").get "a"
      = ((default : NodeState).set "a" "1").get "a" :=
  (get_after_mark_for_deletion ((default : NodeState).set "a" "1") "a"
    (by decide)).1

/-- C5: per-node GC removes exactly the tombstoned entries whose
`version + grace_period < max_version` (never a non-tombstoned entry, and
`max_version` is untouched), and cluster-level GC applies it to every
node not in the dead set while leaving dead nodes unchanged. -/
theorem gc_removes_exactly_expired_tombstones (ns : NodeState)
    (grace_period : Nat) (s : ClusterState) (dead_nodes : List NodeId) :
    (∀ k vv,
      (k, vv) ∈ (ns.gc_keys_marked_for_deletion grace_period).key_values ↔
        ((k, vv) ∈ ns.key_values ∧
          ¬(vv.marked_for_deletion = true ∧
            vv.version + grace_period < ns.max_version))) ∧
    (ns.gc_keys_marked_for_deletion grace_period).max_version
      = ns.max_version ∧
    ∀ n, (s.gc_keys_marked_for_deletion grace_period dead_nodes).node_state n
      = (s.node_state n).map (fun m =>
          if n ∈ dead_nodes then m
          else m.gc_keys_marked_for_deletion grace_period) := by
  refine ⟨?_, rfl, ?_⟩
  · intro k vv
    simp only [NodeState.gc_keys_marked_for_deletion, List.mem_filter,
      Decidable.not_and_iff_or_not]
    apply and_congr_right
    intro _
    by_cases hm : vv.marked_for_deletion <;> simp [hm, Nat.not_lt]
  · intro n
    show alookup (s.node_states.map _) n = _
    have hfun : (fun p : NodeId × NodeState =>
        if dead_nodes.contains p.1 then p
        else (p.1, p.2.gc_keys_marked_for_deletion grace_period))
      = (fun p : NodeId × NodeState =>
        (p.1, if p.1 ∈ dead_nodes then p.2
              else p.2.gc_keys_marked_for_deletion grace_period)) := by
      funext p
      by_cases h : p.1 ∈ dead_nodes <;> simp [h]
    rw [hfun]
    exact alookup_map_value
      (fun (a : NodeId) (m : NodeState) =>
        if a ∈ dead_nodes then m
        else m.gc_keys_marked_for_deletion grace_period)
      s.node_states n

/-- C8: `mark_for_deletion` always increments `max_version` by exactly 1;
an existing key gets its flag set and its version bumped to the new
`max_version` (other keys untouched), while an absent key materializes no
entry even though `max_version` is still incremented. -/
theorem mark_for_deletion_increments_max_version (ns : NodeState)
    (k : String) :
    (ns.mark_for_deletion k).max_version = ns.max_version + 1 ∧
    (∀ vv, alookup ns.key_values k = some vv →
      alookup (ns.mark_for_deletion k).key_values k =
        some { value := vv.value, version := ns.max_version + 1,
               marked_for_deletion := true } ∧
      ∀ k', k' ≠ k →
        alookup (ns.mark_for_deletion k).key_values k' =
          alookup ns.key_values k') ∧
    (alookup ns.key_values k = none →
      (ns.mark_for_deletion k).key_values = ns.key_values) := by
  refine ⟨rfl, ?_, ?_⟩
  · intro vv h
    constructor
    · simp [NodeState.mark_for_deletion, h, alookup_upsert]
    · intro k' hk'
      simp [NodeState.mark_for_deletion, h, alookup_upsert, Ne.symm hk']
  · intro h
    simp [NodeState.mark_for_deletion, h]

/-- C8 witness: the theorem applied to a one-key node state, at the
present key and at an absent key. -/
theorem mark_for_deletion_increments_max_version_witness :
    (((default : NodeState).set "a" "1").mark_for_deletion "a").max_version
        = 2 ∧
    alookup
        (((default : NodeState).set "a" "1").mark_for_deletion "a").key_values
        "a" = some { value := "1", version := 2, marked_for_deletion := true } ∧
    (((default : NodeState).set "a" "1").mark_for_deletion "b").key_values
        = ((default : NodeState).set "a" "1").key_values := by
  refine ⟨(mark_for_deletion_increments_max_version
      ((default : NodeState).set "a" "1") "a").1, ?_, ?_⟩
  · exact ((mark_for_deletion_increments_max_version
      ((default : NodeState).set "a" "1") "a").2.1
      { value := "1", version := 1, marked_for_deletion := false }
      (by decide)).1
  · exact (mark_for_deletion_increments_max_version
      ((default : NodeState).set "a" "1") "b").2.2 (by decide)

theorem default_nodeState_eq :
    (default : NodeState) = { key_values := [], max_version := 0 } := rfl

theorem versionsBounded_default : VersionsBounded (default : NodeState) := by
  intro p hp
  rw [default_nodeState_eq] at hp
  cases hp

theorem applyKVStep_vb {st : NodeState} (h : VersionsBounded st)
    (k : String) (vv : VersionedValue) :
    VersionsBounded (ClusterState.applyKVStep st k vv) := by
  intro p hp
  show p.2.version ≤ max st.max_version vv.version
  unfold ClusterState.applyKVStep at hp
  cases hl : alookup st.key_values k with
  | some record =>
    simp only [hl] at hp
    by_cases hv : vv.version ≤ record.version
    · rw [if_pos hv] at hp
      exact le_trans (h p hp) (le_max_left _ _)
    · rw [if_neg hv] at hp
      rcases mem_upsert hp with h2 | h2
      · exact le_trans (h p h2) (le_max_left _ _)
      · rw [h2]; exact le_max_right _ _
  | none =>
    simp only [hl] at hp
    rcases mem_upsert hp with h2 | h2
    · exact le_trans (h p h2) (le_max_left _ _)
    · rw [h2]; exact le_max_right _ _

theorem applyNodeDelta_vb {ns : NodeState} (h : VersionsBounded ns)
    (l : NodeDelta) : VersionsBounded (ClusterState.applyNodeDelta ns l) := by
  induction l generalizing ns with
  | nil => exact h
  | cons q rest ih => exact ih (applyKVStep_vb h q.1 q.2)

theorem foldl_nodes_vb (l : List (NodeId × NodeDelta)) :
    ∀ m : List (NodeId × NodeState), (∀ q ∈ m, VersionsBounded q.2) →
    ∀ q ∈ l.foldl (fun m p =>
        upsert m p.1
          (ClusterState.applyNodeDelta ((alookup m p.1).getD default) p.2))
      m,
      VersionsBounded q.2 := by
  induction l with
  | nil => intro m hm; exact hm
  | cons p rest ih =>
    intro m hm
    apply ih
    intro q hq
    rcases mem_upsert hq with h2 | h2
    · exact hm q h2
    · rw [h2]
      apply applyNodeDelta_vb
      cases hl : alookup m p.1 with
      | some ns =>
        simpa [hl] using hm (p.1, ns) (alookup_eq_some_mem hl)
      | none =>
        simpa [hl] using versionsBounded_default

/-- C6: `max_version` bounds every stored version: the invariant holds in
the empty state and is preserved by `set`, `mark_for_deletion`,
`gc_keys_marked_for_deletion` and `apply_delta`. -/
theorem max_version_bounds_stored_versions :
    VersionsBounded (default : NodeState) ∧
    ClusterVersionsBounded { node_states := [] } ∧
    (∀ ns k v, VersionsBounded ns → VersionsBounded (ns.set k v)) ∧
    (∀ ns k, VersionsBounded ns →
      VersionsBounded (ns.mark_for_deletion k)) ∧
    (∀ ns grace_period, VersionsBounded ns →
      VersionsBounded (ns.gc_keys_marked_for_deletion grace_period)) ∧
    (∀ s d, ClusterVersionsBounded s →
      ClusterVersionsBounded (s.apply_delta d)) := by
  refine ⟨versionsBounded_default, ?_, ?_, ?_, ?_, ?_⟩
  · intro q hq
    cases hq
  · intro ns k v h p hp
    show p.2.version ≤ ns.max_version + 1
    rcases mem_upsert hp with h2 | h2
    · exact le_trans (h p h2) (Nat.le_succ _)
    · rw [h2]
  · intro ns k h p hp
    show p.2.version ≤ ns.max_version + 1
    unfold NodeState.mark_for_deletion at hp
    cases hl : alookup ns.key_values k with
    | some vv =>
      simp only [hl] at hp
      rcases mem_upsert hp with h2 | h2
      · exact le_trans (h p h2) (Nat.le_succ _)
      · rw [h2]
    | none =>
      simp only [hl] at hp
      exact le_trans (h p hp) (Nat.le_succ _)
  · intro ns grace_period h p hp
    exact h p (List.mem_filter.1 hp).1
  · intro s d h q hq
    refine foldl_nodes_vb d.node_deltas _ ?_ q hq
    intro q' hq'
    exact h q' (List.mem_filter.1 hq').1

/-- C6 witness: the preservation conjuncts applied at concrete states. -/
theorem max_version_bounds_stored_versions_witness :
    VersionsBounded ((default : NodeState).set "a" "1") ∧
    ClusterVersionsBounded (ClusterState.apply_delta { node_states := [] }
      { nodes_to_reset := [],
        node_deltas := [(1, [("k",
          { value := "v", version := 3, marked_for_deletion := false })])] }) := by
  constructor
  · exact max_version_bounds_stored_versions.2.2.1 default "a" "1" (by decide)
  · exact max_version_bounds_stored_versions.2.2.2.2.2 _ _ (by decide)

theorem applyNodeDelta_key_values (ns : NodeState) (l : NodeDelta) :
    (ClusterState.applyNodeDelta ns l).key_values =
      l.foldl (fun kvs q => specInsertKV kvs q.1 q.2) ns.key_values := by
  induction l generalizing ns with
  | nil => rfl
  | cons q rest ih =>
    show (ClusterState.applyNodeDelta
        (ClusterState.applyKVStep ns q.1 q.2) rest).key_values = _
    rw [ih]
    rfl

theorem applyNodeDelta_max (ns : NodeState) (l : NodeDelta) :
    (ClusterState.applyNodeDelta ns l).max_version =
      max ns.max_version (listMaxVersion l) := by
  induction l generalizing ns with
  | nil =>
    show ns.max_version = max ns.max_version (listMaxVersion [])
    simp [listMaxVersion]
  | cons q rest ih =>
    show (ClusterState.applyNodeDelta
        (ClusterState.applyKVStep ns q.1 q.2) rest).max_version = _
    rw [ih]
    show max (max ns.max_version q.2.version) (listMaxVersion rest) = _
    have : listMaxVersion (q :: rest) =
        max q.2.version (listMaxVersion rest) := rfl
    rw [this]
    exact Nat.max_assoc _ _ _

theorem applyNodeDelta_eq_spec (ns : NodeState) (l : NodeDelta) :
    ClusterState.applyNodeDelta ns l =
      { max_version := max ns.max_version (listMaxVersion l),
        key_values :=
          l.foldl (fun kvs q => specInsertKV kvs q.1 q.2) ns.key_values } := by
  rw [← applyNodeDelta_key_values, ← applyNodeDelta_max]

/-- C1: `apply_delta` behaves exactly as the spec describes it: it first
removes the node state of every node in `nodes_to_reset`, then for each
`(NodeId, NodeDelta)` pair gets or creates the node state, sets its
`max_version` to the maximum of the previous `max_version` and every
incoming version, and applies each `(key, incoming)` pair by dropping it
silently when the stored version is `≥ incoming.version` and
inserting/replacing otherwise (`apply_delta_spec` is the transcription of
those words). -/
theorem apply_delta_matches_spec (s : ClusterState) (d : Delta) :
    s.apply_delta d = s.apply_delta_spec d := by
  unfold ClusterState.apply_delta ClusterState.apply_delta_spec
  have hf : (fun (m : List (NodeId × NodeState)) (p : NodeId × NodeDelta) =>
      upsert m p.1
        (ClusterState.applyNodeDelta ((alookup m p.1).getD default) p.2))
    = (fun (m : List (NodeId × NodeState)) (p : NodeId × NodeDelta) =>
      upsert m p.1
        { max_version := max ((alookup m p.1).getD default).max_version
            (listMaxVersion p.2),
          key_values := p.2.foldl (fun kvs q => specInsertKV kvs q.1 q.2)
            ((alookup m p.1).getD default).key_values }) := by
    funext m p
    rw [applyNodeDelta_eq_spec]
  rw [hf]

theorem scanFloor_eq_writeFloor (digest : Digest) (grace_period : Nat)
    (n : NodeId) (ns : NodeState) :
    ClusterState.scanFloor digest grace_period n ns =
      ClusterState.writeFloor digest grace_period n ns := by
  unfold ClusterState.scanFloor ClusterState.writeFloor
  rcases Nat.eq_zero_or_pos (ClusterState.floorOf digest n) with h0 | h0
  · simp [h0]
  · by_cases hc : ClusterState.floorOf digest n + grace_period < ns.max_version
    · simp [hc, h0]
    · simp [hc, h0]

theorem resetNodes_mem (s : ClusterState) (digest : Digest)
    (grace_period : Nat) (dead_nodes : List NodeId) (n : NodeId) :
    n ∈ ClusterState.resetNodes s digest grace_period dead_nodes ↔
      ∃ ns, (n, ns) ∈ s.node_states ∧ n ∉ dead_nodes ∧
        0 < ClusterState.floorOf digest n ∧
        ClusterState.floorOf digest n + grace_period < ns.max_version := by
  unfold ClusterState.resetNodes
  rw [List.mem_filterMap]
  constructor
  · rintro ⟨p, hp, heq⟩
    by_cases hd : p.1 ∈ dead_nodes
    · simp [hd] at heq
    · by_cases hc : 0 < ClusterState.floorOf digest p.1 ∧
          ClusterState.floorOf digest p.1 + grace_period < p.2.max_version
      · rw [if_neg hd, if_pos hc] at heq
        obtain rfl := Option.some.inj heq
        exact ⟨p.2, hp, hd, hc.1, hc.2⟩
      · rw [if_neg hd, if_neg hc] at heq
        cases heq
  · rintro ⟨ns, hmem, hd, h1, h2⟩
    exact ⟨(n, ns), hmem, by simp [hd, h1, h2]⟩

theorem staleCandidates_mem (s : ClusterState) (digest : Digest)
    (grace_period : Nat) (dead_nodes : List NodeId) (n : NodeId) (c : Nat) :
    (n, c) ∈ ClusterState.staleCandidates s digest grace_period dead_nodes ↔
      ∃ ns, (n, ns) ∈ s.node_states ∧ n ∉ dead_nodes ∧
        c = (ns.iter_stale_key_values
          (ClusterState.scanFloor digest grace_period n ns)).length ∧
        0 < c := by
  unfold ClusterState.staleCandidates
  rw [List.mem_filterMap]
  constructor
  · rintro ⟨p, hp, heq⟩
    by_cases hd : p.1 ∈ dead_nodes
    · simp [hd] at heq
    · by_cases hc : 0 < (p.2.iter_stale_key_values
          (ClusterState.scanFloor digest grace_period p.1 p.2)).length
      · simp only [hd, if_neg, not_false_iff, hc, if_pos,
          Option.some.injEq, Prod.mk.injEq] at heq
        obtain ⟨h1, h2⟩ := heq
        subst h1
        subst h2
        exact ⟨p.2, hp, hd, rfl, hc⟩
      · simp [hd, hc] at heq
  · rintro ⟨ns, hmem, hd, hc, hpos⟩
    subst hc
    exact ⟨(n, ns), hmem, by simp [hd, hpos]⟩

theorem staleCandidates_keys_sublist (s : ClusterState) (digest : Digest)
    (grace_period : Nat) (dead_nodes : List NodeId) :
    ((ClusterState.staleCandidates s digest grace_period
        dead_nodes).map Prod.fst).Sublist
      (s.node_states.map Prod.fst) := by
  unfold ClusterState.staleCandidates
  induction s.node_states with
  | nil => simp
  | cons p rest ih =>
    simp only [List.filterMap_cons]
    by_cases hd : p.1 ∈ dead_nodes
    · simp only [hd, if_pos]
      exact List.Sublist.cons _ ih
    · by_cases hc : 0 < (p.2.iter_stale_key_values
          (ClusterState.scanFloor digest grace_period p.1 p.2)).length
      · simp only [hd, if_neg, not_false_iff, hc, if_pos, List.map_cons]
        exact List.Sublist.cons₂ _ ih
      · simp only [hd, if_neg, not_false_iff, hc]
        exact List.Sublist.cons _ ih

theorem appendToLast_snoc (D : List (NodeId × NodeDelta))
    (p : NodeId × NodeDelta) (kv : String × VersionedValue) :
    DeltaWriter.appendToLast (D ++ [p]) kv = D ++ [(p.1, p.2 ++ [kv])] := by
  induction D with
  | nil => rfl
  | cons q rest ih =>
    cases hr : rest ++ [p] with
    | nil => exact absurd hr (by simp)
    | cons x xs =>
      have h1 : DeltaWriter.appendToLast ((q :: rest) ++ [p]) kv
          = q :: DeltaWriter.appendToLast (rest ++ [p]) kv := by
        rw [List.cons_append, hr]
        rfl
      rw [h1, ih]
      simp

theorem addKVs_spec (ck : String → VersionedValue → Nat)
    (l : List (String × VersionedValue)) :
    ∀ (w : DeltaWriter) (D : List (NodeId × NodeDelta)) (n : NodeId)
      (kvs0 : NodeDelta), w.node_deltas = D ++ [(n, kvs0)] →
    ∀ b w', ClusterState.addKVs ck w l = (b, w') →
      w'.nodes_to_reset = w.nodes_to_reset ∧
      ∃ l1 l2, l = l1 ++ l2 ∧
        w'.node_deltas = D ++ [(n, kvs0 ++ l1)] ∧
        (b = true → l2 = []) := by
  induction l with
  | nil =>
    intro w D n kvs0 hw b w' h
    simp only [ClusterState.addKVs] at h
    injection h with h1 h2
    subst h1
    subst h2
    exact ⟨rfl, [], [], by simp, by simp [hw], fun _ => rfl⟩
  | cons kv rest ih =>
    intro w D n kvs0 hw b w' h
    by_cases hfit : w.used + ck kv.1 kv.2 ≤ w.mtu
    · have hstep : ClusterState.addKVs ck w (kv :: rest) =
          ClusterState.addKVs ck
            { w with used := w.used + ck kv.1 kv.2,
                     node_deltas := DeltaWriter.appendToLast
                       w.node_deltas (kv.1, kv.2) } rest := by
        simp [ClusterState.addKVs, DeltaWriter.add_kv, hfit]
      rw [hstep] at h
      obtain ⟨hres, l1, l2, hsplit, hdeltas, hb⟩ :=
        ih _ D n (kvs0 ++ [kv]) (by
          show DeltaWriter.appendToLast w.node_deltas (kv.1, kv.2)
            = D ++ [(n, kvs0 ++ [kv])]
          rw [hw]
          exact appendToLast_snoc D (n, kvs0) (kv.1, kv.2)) b w' h
      refine ⟨hres, kv :: l1, l2, by simp [hsplit], ?_, hb⟩
      rw [hdeltas]
      simp
    · have hstep : ClusterState.addKVs ck w (kv :: rest) = (false, w) := by
        simp [ClusterState.addKVs, DeltaWriter.add_kv, hfit]
      rw [hstep] at h
      injection h with h1 h2
      subst h1
      subst h2
      exact ⟨rfl, [], kv :: rest, by simp, by simp [hw],
        fun hb => by cases hb⟩

theorem writePhase_structure (s : ClusterState) (digest : Digest)
    (grace_period : Nat) (cn : NodeId → Nat)
    (ck : String → VersionedValue → Nat) :
    ∀ (order : List NodeId) (w : DeltaWriter) (d : Delta),
      ClusterState.writePhase s digest grace_period cn ck order w = some d →
      d.nodes_to_reset = w.nodes_to_reset ∧
      (∃ j, d.node_deltas.map Prod.fst
          = w.node_deltas.map Prod.fst ++ order.take j) ∧
      ∀ p ∈ d.node_deltas, p ∈ w.node_deltas ∨
        (p.1 ∈ order ∧ ∃ ns tail, s.node_state p.1 = some ns ∧
          ClusterState.sortKVsByVersion
            (ns.iter_stale_key_values
              (ClusterState.writeFloor digest grace_period p.1 ns))
            = p.2 ++ tail) := by
  intro order
  induction order with
  | nil =>
    intro w d h
    simp only [ClusterState.writePhase, Option.some.injEq] at h
    subst h
    exact ⟨rfl, ⟨0, by simp [DeltaWriter.toDelta]⟩, fun p hp => Or.inl hp⟩
  | cons n rest ih =>
    intro w d h
    by_cases hfit : w.used + cn n ≤ w.mtu
    · cases hns : s.node_state n with
      | none =>
        have hnone : ClusterState.writePhase s digest grace_period cn ck
            (n :: rest) w = none := by
          simp [ClusterState.writePhase, DeltaWriter.add_node, hfit, hns]
        rw [hnone] at h
        cases h
      | some ns =>
        by_cases hemp : (ns.iter_stale_key_values
            (ClusterState.writeFloor digest grace_period n ns)).isEmpty
        · have hnone : ClusterState.writePhase s digest grace_period cn ck
              (n :: rest) w = none := by
            simp [ClusterState.writePhase, DeltaWriter.add_node, hfit, hns,
              hemp]
          rw [hnone] at h
          cases h
        · rcases haddk : ClusterState.addKVs ck
              { w with used := w.used + cn n,
                       node_deltas := w.node_deltas ++ [(n, [])] }
              (ClusterState.sortKVsByVersion
                (ns.iter_stale_key_values
                  (ClusterState.writeFloor digest grace_period n ns)))
            with ⟨b, w2⟩
          cases b with
          | false =>
            have heq : ClusterState.writePhase s digest grace_period cn ck
                (n :: rest) w = some w2.toDelta := by
              simp [ClusterState.writePhase, DeltaWriter.add_node, hfit, hns,
                hemp, haddk]
            rw [heq] at h
            obtain rfl := Option.some.inj h
            obtain ⟨hres, l1, l2, hsplit, hdeltas, -⟩ :=
              addKVs_spec ck _ _ w.node_deltas n [] (by simp) false w2 haddk
            refine ⟨hres, ⟨1, ?_⟩, ?_⟩
            · show w2.node_deltas.map Prod.fst = _
              rw [hdeltas]
              simp
            · intro p hp
              replace hp : p ∈ w2.node_deltas := hp
              rw [hdeltas] at hp
              rcases List.mem_append.1 hp with hp | hp
              · exact Or.inl hp
              · right
                have hpe : p = (n, l1) := by simpa using hp
                subst hpe
                exact ⟨List.mem_cons_self _ _, ns, l2, hns, by simpa using hsplit⟩
          | true =>
            have heq : ClusterState.writePhase s digest grace_period cn ck
                (n :: rest) w = ClusterState.writePhase s digest grace_period
                  cn ck rest w2 := by
              simp [ClusterState.writePhase, DeltaWriter.add_node, hfit, hns,
                hemp, haddk]
            rw [heq] at h
            obtain ⟨hres, ⟨j, hmap⟩, hsec⟩ := ih w2 d h
            obtain ⟨hres2, l1, l2, hsplit, hdeltas, hb⟩ :=
              addKVs_spec ck _ _ w.node_deltas n [] (by simp) true w2 haddk
            have hl2 : l2 = [] := hb rfl
            subst hl2
            refine ⟨hres.trans hres2, ⟨j + 1, ?_⟩, ?_⟩
            · rw [hmap, hdeltas]
              simp
            · intro p hp
              rcases hsec p hp with hp2 | hp2
              · rw [hdeltas] at hp2
                rcases List.mem_append.1 hp2 with hp3 | hp3
                · exact Or.inl hp3
                · right
                  have hpe : p = (n, l1) := by simpa using hp3
                  subst hpe
                  exact ⟨List.mem_cons_self _ _, ns, [], hns,
                    by simpa using hsplit⟩
              · exact Or.inr ⟨List.mem_cons_of_mem _ hp2.1, hp2.2⟩
    · have hstep : ClusterState.writePhase s digest grace_period cn ck
          (n :: rest) w = some w.toDelta := by
        simp [ClusterState.writePhase, DeltaWriter.add_node, hfit]
      rw [hstep] at h
      obtain rfl := Option.some.inj h
      exact ⟨rfl, ⟨0, by simp [DeltaWriter.toDelta]⟩, fun p hp => Or.inl hp⟩

theorem nodeOrder_mem (pairs : List (NodeId × Nat))
    (shuffle : List NodeId → List NodeId)
    (hsh : ∀ l, (shuffle l).Perm l) :
    ∀ n ∈ ClusterState.nodeOrder pairs shuffle, ∃ c, (n, c) ∈ pairs := by
  intro n hn
  unfold ClusterState.nodeOrder at hn
  rw [List.mem_flatMap] at hn
  obtain ⟨d, -, hmem⟩ := hn
  have hmem2 : n ∈ (pairs.filter (fun p => p.2 = d)).map Prod.fst :=
    (hsh _).mem_iff.1 hmem
  obtain ⟨p, hp, hpe⟩ := List.mem_map.1 hmem2
  have hp2 := List.mem_filter.1 hp
  exact ⟨p.2, by rw [← hpe]; exact hp2.1⟩

theorem writePhase_total (s : ClusterState) (digest : Digest)
    (grace_period : Nat) (cn : NodeId → Nat)
    (ck : String → VersionedValue → Nat) :
    ∀ (order : List NodeId) (w : DeltaWriter),
      (∀ n ∈ order, ∃ ns, s.node_state n = some ns ∧
        ns.iter_stale_key_values
          (ClusterState.writeFloor digest grace_period n ns) ≠ []) →
      (ClusterState.writePhase s digest grace_period cn ck
        order w).isSome = true := by
  intro order
  induction order with
  | nil => intro w _; rfl
  | cons n rest ih =>
    intro w hgood
    by_cases hfit : w.used + cn n ≤ w.mtu
    · obtain ⟨ns, hns, hne⟩ := hgood n (List.mem_cons_self _ _)
      have hemp : (ns.iter_stale_key_values
          (ClusterState.writeFloor digest grace_period n ns)).isEmpty
            = false := by
        cases hl : ns.iter_stale_key_values
            (ClusterState.writeFloor digest grace_period n ns) with
        | nil => exact absurd hl hne
        | cons x xs => rfl
      rcases haddk : ClusterState.addKVs ck
          { w with used := w.used + cn n,
                   node_deltas := w.node_deltas ++ [(n, [])] }
          (ClusterState.sortKVsByVersion
            (ns.iter_stale_key_values
              (ClusterState.writeFloor digest grace_period n ns)))
        with ⟨b, w2⟩
      cases b with
      | false =>
        have heq : ClusterState.writePhase s digest grace_period cn ck
            (n :: rest) w = some w2.toDelta := by
          simp [ClusterState.writePhase, DeltaWriter.add_node, hfit, hns,
            hemp, haddk]
        rw [heq]
        rfl
      | true =>
        have heq : ClusterState.writePhase s digest grace_period cn ck
            (n :: rest) w = ClusterState.writePhase s digest grace_period
              cn ck rest w2 := by
          simp [ClusterState.writePhase, DeltaWriter.add_node, hfit, hns,
            hemp, haddk]
        rw [heq]
        exact ih w2 (fun m hm => hgood m (List.mem_cons_of_mem _ hm))
    · have hstep : ClusterState.writePhase s digest grace_period cn ck
          (n :: rest) w = some w.toDelta := by
        simp [ClusterState.writePhase, DeltaWriter.add_node, hfit]
      rw [hstep]
      rfl

/-- C2: in `compute_delta`, a known node is marked for reset iff it is
live, its digest floor is positive and `floor + grace_period <
max_version`; a node absent from the digest has floor 0 and is never
reset; and for a reset node the write-phase floor is 0, so its delta
section is an initial segment of its full version-sorted state. -/
theorem compute_delta_reset_condition (s : ClusterState) (digest : Digest)
    (mtu : Nat) (dead_nodes : List NodeId) (grace_period : Nat)
    (cn : NodeId → Nat) (ck : String → VersionedValue → Nat)
    (shuffle : List NodeId → List NodeId) (d : Delta)
    (hnd : (s.node_states.map Prod.fst).Nodup)
    (h : ClusterState.compute_delta s digest mtu dead_nodes grace_period
      cn ck shuffle = some d) :
    (∀ n, n ∈ d.nodes_to_reset ↔
      ∃ ns, (n, ns) ∈ s.node_states ∧ n ∉ dead_nodes ∧
        0 < ClusterState.floorOf digest n ∧
        ClusterState.floorOf digest n + grace_period < ns.max_version) ∧
    (∀ n ns, n ∈ d.nodes_to_reset → s.node_state n = some ns →
      ClusterState.writeFloor digest grace_period n ns = 0) ∧
    (∀ p ∈ d.node_deltas, p.1 ∈ d.nodes_to_reset →
      ∃ ns tail, s.node_state p.1 = some ns ∧
        ClusterState.sortKVsByVersion (ns.iter_stale_key_values 0)
          = p.2 ++ tail) := by
  unfold ClusterState.compute_delta at h
  obtain ⟨hres, -, hsec⟩ := writePhase_structure s digest grace_period cn ck
    _ _ d h
  have hres' : d.nodes_to_reset =
      ClusterState.resetNodes s digest grace_period dead_nodes := hres
  have hmain : ∀ n, n ∈ d.nodes_to_reset ↔
      ∃ ns, (n, ns) ∈ s.node_states ∧ n ∉ dead_nodes ∧
        0 < ClusterState.floorOf digest n ∧
        ClusterState.floorOf digest n + grace_period < ns.max_version := by
    intro n
    rw [hres']
    exact resetNodes_mem s digest grace_period dead_nodes n
  have hfloor : ∀ n ns, n ∈ d.nodes_to_reset → s.node_state n = some ns →
      ClusterState.writeFloor digest grace_period n ns = 0 := by
    intro n ns hn hlook
    obtain ⟨ns', hmem', -, -, h2⟩ := (hmain n).1 hn
    have : ns' = ns := by
      have := alookup_of_mem_nodup hnd hmem'
      rw [ClusterState.node_state] at hlook
      rw [this] at hlook
      exact Option.some.inj hlook
    subst this
    unfold ClusterState.writeFloor
    simp [h2]
  refine ⟨hmain, hfloor, ?_⟩
  intro p hp hpr
  rcases hsec p hp with hp2 | hp2
  · simp [DeltaWriter.with_mtu] at hp2
  · obtain ⟨-, ns, tail, hlook, hsort⟩ := hp2
    refine ⟨ns, tail, hlook, ?_⟩
    rw [← hfloor p.1 ns hpr hlook]
    exact hsort

/-- C2 witness: on a one-node state whose digest floor is 1 and whose
`max_version` is 5 (grace 0), the node is reset and ships its full
state. -/
theorem compute_delta_reset_condition_witness :
    2 ∈ ({ nodes_to_reset := [2],
           node_deltas := [(2, [("a",
             { value := "x", version := 5,
               marked_for_deletion := false })])] } : Delta).nodes_to_reset :=
  (compute_delta_reset_condition
    { node_states := [(2,
        { key_values := [("a",
            { value := "x", version := 5, marked_for_deletion := false })],
          max_version := 5 })] }
    { node_max_version := [(2, 1)] } 100 [] 0 (fun _ => 1) (fun _ _ => 1) id
    { nodes_to_reset := [2],
      node_deltas := [(2, [("a",
        { value := "x", version := 5, marked_for_deletion := false })])] }
    (by decide) (by decide)).1 2 |>.2
    ⟨{ key_values := [("a",
          { value := "x", version := 5, marked_for_deletion := false })],
       max_version := 5 }, by decide, by decide, by decide, by decide⟩

/-- C9: the `nodes_to_reset` of `compute_delta` is exactly the scan-pass
reset set, and is therefore independent of the MTU budget, the byte-cost
model and the tie-breaking shuffle: reset markers are recorded before any
budget-limited writing. -/
theorem compute_delta_reset_independent_of_mtu (s : ClusterState)
    (digest : Digest) (dead_nodes : List NodeId) (grace_period : Nat)
    (mtu mtu' : Nat) (cn cn' : NodeId → Nat)
    (ck ck' : String → VersionedValue → Nat)
    (shuffle shuffle' : List NodeId → List NodeId) (d d' : Delta)
    (h : ClusterState.compute_delta s digest mtu dead_nodes grace_period
      cn ck shuffle = some d)
    (h' : ClusterState.compute_delta s digest mtu' dead_nodes grace_period
      cn' ck' shuffle' = some d') :
    d.nodes_to_reset =
      ClusterState.resetNodes s digest grace_period dead_nodes ∧
    d'.nodes_to_reset = d.nodes_to_reset := by
  unfold ClusterState.compute_delta at h h'
  obtain ⟨hres, -, -⟩ := writePhase_structure s digest grace_period cn ck
    _ _ d h
  obtain ⟨hres', -, -⟩ := writePhase_structure s digest grace_period cn' ck'
    _ _ d' h'
  exact ⟨hres, hres'.trans hres.symm⟩

/-- C9 witness: the same state computed at MTU 100 and at MTU 0 (where no
section fits) yields the same `nodes_to_reset`. -/
theorem compute_delta_reset_independent_of_mtu_witness :
    ({ nodes_to_reset := [2],
       node_deltas := [(2, [("a",
         { value := "x", version := 5,
           marked_for_deletion := false })])] } : Delta).nodes_to_reset =
      ClusterState.resetNodes
        { node_states := [(2,
            { key_values := [("a",
                { value := "x", version := 5,
                  marked_for_deletion := false })],
              max_version := 5 })] }
        { node_max_version := [(2, 1)] } 0 [] ∧
    ({ nodes_to_reset := [2], node_deltas := [] } : Delta).nodes_to_reset =
      ({ nodes_to_reset := [2],
         node_deltas := [(2, [("a",
           { value := "x", version := 5,
             marked_for_deletion := false })])] } : Delta).nodes_to_reset :=
  compute_delta_reset_independent_of_mtu
    { node_states := [(2,
        { key_values := [("a",
            { value := "x", version := 5, marked_for_deletion := false })],
          max_version := 5 })] }
    { node_max_version := [(2, 1)] } [] 0 100 0
    (fun _ => 1) (fun _ => 1) (fun _ _ => 1) (fun _ _ => 1) id id
    { nodes_to_reset := [2],
      node_deltas := [(2, [("a",
        { value := "x", version := 5, marked_for_deletion := false })])] }
    { nodes_to_reset := [2], node_deltas := [] }
    (by decide) (by decide)

/-- C10: `compute_delta` never panics: the node lookup of the write phase
always succeeds and the collected stale list of every selected node is
non-empty (the scan-pass floor and the recomputed write-phase floor
coincide), so the modelled panics (`none`) are unreachable. -/
theorem compute_delta_never_panics (s : ClusterState) (digest : Digest)
    (mtu : Nat) (dead_nodes : List NodeId) (grace_period : Nat)
    (cn : NodeId → Nat) (ck : String → VersionedValue → Nat)
    (shuffle : List NodeId → List NodeId)
    (hnd : (s.node_states.map Prod.fst).Nodup)
    (hsh : ∀ l, (shuffle l).Perm l) :
    (ClusterState.compute_delta s digest mtu dead_nodes grace_period
      cn ck shuffle).isSome = true := by
  unfold ClusterState.compute_delta
  apply writePhase_total
  intro n hn
  obtain ⟨c, hc⟩ := nodeOrder_mem _ shuffle hsh n hn
  obtain ⟨ns, hmem, -, hlen, hpos⟩ :=
    (staleCandidates_mem s digest grace_period dead_nodes n c).1 hc
  refine ⟨ns, alookup_of_mem_nodup hnd hmem, ?_⟩
  rw [← scanFloor_eq_writeFloor]
  intro hnil
  rw [hnil] at hlen
  subst hlen
  cases hpos

/-- C10 witness: `compute_delta` on a concrete one-node state returns a
delta. -/
theorem compute_delta_never_panics_witness :
    (ClusterState.compute_delta
      { node_states := [(1,
          { key_values := [("a",
              { value := "1", version := 1, marked_for_deletion := false })],
            max_version := 1 })] }
      { node_max_version := [] } 10 [] 5 (fun _ => 1) (fun _ _ => 1)
      id).isSome = true :=
  compute_delta_never_panics _ _ _ _ _ _ _ _ (by decide)
    (fun l => List.Perm.refl l)

theorem sortKVsByVersion_sorted (l : List (String × VersionedValue)) :
    List.Sorted (fun (a b : String × VersionedValue) =>
      a.2.version ≤ b.2.version) (ClusterState.sortKVsByVersion l) :=
  List.sorted_insertionSort _ l

theorem sortKVsByVersion_perm (l : List (String × VersionedValue)) :
    (ClusterState.sortKVsByVersion l).Perm l :=
  List.perm_insertionSort _ l

theorem staleCountOf_of_mem (s : ClusterState) (digest : Digest)
    (grace_period : Nat) (dead_nodes : List NodeId)
    (hnd : (s.node_states.map Prod.fst).Nodup) {n : NodeId} {c : Nat}
    (hc : (n, c) ∈ ClusterState.staleCandidates s digest grace_period
      dead_nodes) :
    ClusterState.staleCountOf s digest grace_period n = c := by
  obtain ⟨ns, hmem, -, hlen, -⟩ :=
    (staleCandidates_mem s digest grace_period dead_nodes n c).1 hc
  have hlook : s.node_state n = some ns := alookup_of_mem_nodup hnd hmem
  simp [ClusterState.staleCountOf, hlook, ← hlen]

theorem nodeOrder_block_count (s : ClusterState) (digest : Digest)
    (grace_period : Nat) (dead_nodes : List NodeId)
    (hnd : (s.node_states.map Prod.fst).Nodup)
    (shuffle : List NodeId → List NodeId)
    (hsh : ∀ l, (shuffle l).Perm l) {dl : Nat} {x : NodeId}
    (hx : x ∈ shuffle (((ClusterState.staleCandidates s digest grace_period
      dead_nodes).filter (fun p => p.2 = dl)).map Prod.fst)) :
    ClusterState.staleCountOf s digest grace_period x = dl := by
  have hx2 := (hsh _).mem_iff.1 hx
  obtain ⟨p, hp, rfl⟩ := List.mem_map.1 hx2
  have hf := List.mem_filter.1 hp
  have h2 : p.2 = dl := by simpa using hf.2
  exact h2 ▸ staleCountOf_of_mem s digest grace_period dead_nodes hnd hf.1

theorem nodeOrder_counts_sorted (s : ClusterState) (digest : Digest)
    (grace_period : Nat) (dead_nodes : List NodeId)
    (hnd : (s.node_states.map Prod.fst).Nodup)
    (shuffle : List NodeId → List NodeId)
    (hsh : ∀ l, (shuffle l).Perm l) :
    List.Sorted (fun a b => b ≤ a)
      ((ClusterState.nodeOrder
          (ClusterState.staleCandidates s digest grace_period dead_nodes)
          shuffle).map
        (ClusterState.staleCountOf s digest grace_period)) := by
  unfold ClusterState.nodeOrder
  rw [List.map_flatMap, List.flatMap_def]
  show List.Pairwise _ _
  rw [List.pairwise_flatten]
  constructor
  · intro l' hl'
    obtain ⟨dl, -, rfl⟩ := List.mem_map.1 hl'
    apply List.pairwise_of_forall_mem_list
    intro a ha b hb
    obtain ⟨x, hx, rfl⟩ := List.mem_map.1 ha
    obtain ⟨y, hy, rfl⟩ := List.mem_map.1 hb
    rw [nodeOrder_block_count s digest grace_period dead_nodes hnd
      shuffle hsh hx,
      nodeOrder_block_count s digest grace_period dead_nodes hnd
      shuffle hsh hy]
  · rw [List.pairwise_map]
    have hsorted : List.Pairwise (fun (a b : Nat) => b ≤ a)
        ((((ClusterState.staleCandidates s digest grace_period
          dead_nodes).map Prod.snd).dedup).insertionSort
          (fun a b => b ≤ a)) :=
      List.sorted_insertionSort _ _
    refine hsorted.imp ?_
    intro d1 d2 hle x hx y hy
    obtain ⟨u, hu, rfl⟩ := List.mem_map.1 hx
    obtain ⟨v, hv, rfl⟩ := List.mem_map.1 hy
    rw [nodeOrder_block_count s digest grace_period dead_nodes hnd
      shuffle hsh hu,
      nodeOrder_block_count s digest grace_period dead_nodes hnd
      shuffle hsh hv]
    exact hle

/-- C3 counterexample: a node holding two keys with equal versions
(reachable through `apply_delta`) yields a delta section whose versions
are [5, 5] — not strictly ascending as the claim states. -/
theorem compute_delta_strict_ascending_counterexample :
    ClusterState.compute_delta
      { node_states := [(1,
          { key_values :=
              [("a", { value := "x", version := 5,
                       marked_for_deletion := false }),
               ("b", { value := "y", version := 5,
                       marked_for_deletion := false })],
            max_version := 5 })] }
      { node_max_version := [] } 100 [] 0 (fun _ => 1) (fun _ _ => 1) id
      = some { nodes_to_reset := [],
               node_deltas := [(1,
                 [("a", { value := "x", version := 5,
                          marked_for_deletion := false }),
                  ("b", { value := "y", version := 5,
                          marked_for_deletion := false })])] } ∧
    ¬ List.Pairwise (fun (a b : String × VersionedValue) =>
        a.2.version < b.2.version)
      [("a", { value := "x", version := 5, marked_for_deletion := false }),
       ("b", { value := "y", version := 5, marked_for_deletion := false })]
    := ⟨by decide, by decide⟩

/-- C3 (amended): every delta produced by `compute_delta` lists node
sections in descending order of scan-pass stale counts (ties among
equal-stale nodes ordered by the shuffle), omits nodes whose stale count
is 0, and lists each section's key/values in non-decreasing version
order — strictly ascending whenever the node's stored versions are
pairwise distinct (equal versions under two keys, reachable only through
`apply_delta`, make the order non-strict). -/
theorem compute_delta_scuttle_depth_order (s : ClusterState)
    (digest : Digest) (mtu : Nat) (dead_nodes : List NodeId)
    (grace_period : Nat) (cn : NodeId → Nat)
    (ck : String → VersionedValue → Nat)
    (shuffle : List NodeId → List NodeId) (d : Delta)
    (hnd : (s.node_states.map Prod.fst).Nodup)
    (hsh : ∀ l, (shuffle l).Perm l)
    (h : ClusterState.compute_delta s digest mtu dead_nodes grace_period
      cn ck shuffle = some d) :
    List.Sorted (fun a b => b ≤ a)
      (d.node_deltas.map (fun p =>
        ClusterState.staleCountOf s digest grace_period p.1)) ∧
    (∀ p ∈ d.node_deltas,
      0 < ClusterState.staleCountOf s digest grace_period p.1) ∧
    (∀ p ∈ d.node_deltas,
      List.Sorted (fun (a b : Version) => a ≤ b)
        (p.2.map (fun kv => kv.2.version)) ∧
      (∀ ns, s.node_state p.1 = some ns →
        (ns.key_values.map (fun q => q.2.version)).Nodup →
        List.Pairwise (fun (a b : Version) => a < b)
          (p.2.map (fun kv => kv.2.version)))) := by
  unfold ClusterState.compute_delta at h
  obtain ⟨-, ⟨j, hmap⟩, hsec⟩ := writePhase_structure s digest grace_period
    cn ck _ _ d h
  refine ⟨?_, ?_, ?_⟩
  · have hmap' : d.node_deltas.map Prod.fst =
        (ClusterState.nodeOrder (ClusterState.staleCandidates s digest
          grace_period dead_nodes) shuffle).take j := by
      simpa [DeltaWriter.with_mtu] using hmap
    have h1 : d.node_deltas.map (fun p =>
        ClusterState.staleCountOf s digest grace_period p.1) =
        ((ClusterState.nodeOrder (ClusterState.staleCandidates s digest
          grace_period dead_nodes) shuffle).map
          (ClusterState.staleCountOf s digest grace_period)).take j := by
      rw [← List.map_take, ← hmap', List.map_map]
      rfl
    rw [h1]
    exact (nodeOrder_counts_sorted s digest grace_period dead_nodes hnd
      shuffle hsh).sublist (List.take_sublist _ _)
  · intro p hp
    rcases hsec p hp with hp2 | hp2
    · simp [DeltaWriter.with_mtu] at hp2
    · obtain ⟨c, hc⟩ := nodeOrder_mem _ shuffle hsh p.1 hp2.1
      obtain ⟨-, -, -, -, hpos⟩ :=
        (staleCandidates_mem s digest grace_period dead_nodes p.1 c).1 hc
      rw [staleCountOf_of_mem s digest grace_period dead_nodes hnd hc]
      exact hpos
  · intro p hp
    rcases hsec p hp with hp2 | hp2
    · simp [DeltaWriter.with_mtu] at hp2
    · obtain ⟨-, ns, tail, hlook, hsort⟩ := hp2
      have hsub : p.2.Sublist (ClusterState.sortKVsByVersion
          (ns.iter_stale_key_values
            (ClusterState.writeFloor digest grace_period p.1 ns))) := by
        rw [hsort]
        exact List.sublist_append_left p.2 tail
      have hsorted := (sortKVsByVersion_sorted
        (ns.iter_stale_key_values
          (ClusterState.writeFloor digest grace_period p.1 ns))).sublist hsub
      constructor
      · exact List.pairwise_map.2 hsorted
      · intro ns' hlook' hnodup
        have hns : ns' = ns := by
          rw [hlook] at hlook'
          exact (Option.some.inj hlook').symm
        rw [hns] at hnodup
        have hstalesub : (ns.iter_stale_key_values
            (ClusterState.writeFloor digest grace_period p.1 ns)).Sublist
            ns.key_values := List.filter_sublist _
        have hsnodup : ((ClusterState.sortKVsByVersion
            (ns.iter_stale_key_values
              (ClusterState.writeFloor digest grace_period p.1
                ns))).map (fun q => q.2.version)).Nodup := by
          rw [List.Perm.nodup_iff
            ((sortKVsByVersion_perm _).map (fun q => q.2.version))]
          exact (hstalesub.map (fun q => q.2.version)).nodup hnodup
        have hpnodup : (p.2.map (fun q => q.2.version)).Nodup :=
          (hsub.map (fun q => q.2.version)).nodup hsnodup
        have hple : List.Pairwise (fun (a b : Version) => a ≤ b)
            (p.2.map (fun kv => kv.2.version)) :=
          List.pairwise_map.2 hsorted
        have hpne : List.Pairwise (fun (a b : Version) => a ≠ b)
            (p.2.map (fun kv => kv.2.version)) := hpnodup
        exact (hple.and hpne).imp
          (fun hab => lt_of_le_of_ne hab.1 hab.2)

/-- C3 witness: the amended theorem applied to the two-equal-version
state, giving the non-decreasing order of its section. -/
theorem compute_delta_scuttle_depth_order_witness :
    List.Sorted (fun (a b : Version) => a ≤ b)
      (([("a", { value := "x", version := 5, marked_for_deletion := false }),
         ("b", { value := "y", version := 5,
                 marked_for_deletion := false })] :
        List (String × VersionedValue)).map
        (fun kv => kv.2.version)) :=
  ((compute_delta_scuttle_depth_order
    { node_states := [(1,
        { key_values :=
            [("a", { value := "x", version := 5,
                     marked_for_deletion := false }),
             ("b", { value := "y", version := 5,
                     marked_for_deletion := false })],
          max_version := 5 })] }
    { node_max_version := [] } 100 [] 0 (fun _ => 1) (fun _ _ => 1) id
    { nodes_to_reset := [],
      node_deltas := [(1,
        [("a", { value := "x", version := 5,
                 marked_for_deletion := false }),
         ("b", { value := "y", version := 5,
                 marked_for_deletion := false })])] }
    (by decide) (fun l => List.Perm.refl l) (by decide)).2.2
    (1, [("a", { value := "x", version := 5, marked_for_deletion := false }),
         ("b", { value := "y", version := 5, marked_for_deletion := false })])
    (by decide)).1

theorem applyKV_none (incoming : VersionedValue) :
    applyKV none incoming = some incoming := rfl

theorem applyKV_some (record incoming : VersionedValue) :
    applyKV (some record) incoming =
      if incoming.version ≤ record.version then some record
      else some incoming := rfl

theorem pick_nil (o : Option VersionedValue) : pick o [] = o := rfl

theorem pick_cons (o : Option VersionedValue) (x : VersionedValue)
    (l : List VersionedValue) : pick o (x :: l) = pick (applyKV o x) l := rfl

theorem pick_append (o : Option VersionedValue)
    (l1 l2 : List VersionedValue) :
    pick o (l1 ++ l2) = pick (pick o l1) l2 :=
  List.foldl_append _ _ _ _

theorem pick_some_getLast (l : List VersionedValue) :
    ∀ (hne : l ≠ []) (c : VersionedValue),
      List.Pairwise (fun a b => a.version < b.version) l →
      pick (some c) l =
        if (l.getLast hne).version ≤ c.version then some c
        else some (l.getLast hne) := by
  induction l with
  | nil => intro hne; exact absurd rfl hne
  | cons x xs ih =>
    intro hne c hp
    rw [List.pairwise_cons] at hp
    cases xs with
    | nil =>
      rw [pick_cons, applyKV_some, pick_nil]
      simp [List.getLast_singleton]
    | cons y ys =>
      have hne2 : y :: ys ≠ [] := by simp
      have hlast : (x :: y :: ys).getLast hne = (y :: ys).getLast hne2 :=
        List.getLast_cons hne2
      by_cases hcx : x.version ≤ c.version
      · rw [pick_cons, applyKV_some, if_pos hcx, ih hne2 c hp.2, hlast]
      · rw [pick_cons, applyKV_some, if_neg hcx, ih hne2 x hp.2, hlast]
        have hxl : x.version < ((y :: ys).getLast hne2).version :=
          hp.1 _ (List.getLast_mem hne2)
        have h1 : ¬ ((y :: ys).getLast hne2).version ≤ x.version := by omega
        have h2 : ¬ ((y :: ys).getLast hne2).version ≤ c.version := by omega
        rw [if_neg h1, if_neg h2]

theorem pick_none_getLast (l : List VersionedValue) :
    ∀ (hne : l ≠ []),
      List.Pairwise (fun a b => a.version < b.version) l →
      pick none l = some (l.getLast hne) := by
  cases l with
  | nil => intro hne; exact absurd rfl hne
  | cons x xs =>
    intro hne hp
    rw [List.pairwise_cons] at hp
    cases xs with
    | nil => rfl
    | cons y ys =>
      have hne2 : y :: ys ≠ [] := by simp
      rw [pick_cons, applyKV_none, pick_some_getLast (y :: ys) hne2 x hp.2,
        List.getLast_cons hne2]
      have hxl : x.version < ((y :: ys).getLast hne2).version :=
        hp.1 _ (List.getLast_mem hne2)
      have h1 : ¬ ((y :: ys).getLast hne2).version ≤ x.version := by omega
      rw [if_neg h1]

theorem pick_eq_applyKV_getLast (l : List VersionedValue) (hne : l ≠ [])
    (o : Option VersionedValue)
    (hp : List.Pairwise (fun a b => a.version < b.version) l) :
    pick o l = applyKV o (l.getLast hne) := by
  cases o with
  | none => rw [applyKV_none]; exact pick_none_getLast l hne hp
  | some c => rw [applyKV_some]; exact pick_some_getLast l hne c hp

theorem applyKV_comm (o : Option VersionedValue) (a1 a2 : VersionedValue)
    (heqc : a1.version = a2.version → a1 = a2) :
    applyKV (applyKV o a1) a2 = applyKV (applyKV o a2) a1 := by
  cases o with
  | none =>
    rw [applyKV_none, applyKV_none, applyKV_some, applyKV_some]
    rcases Nat.lt_trichotomy a1.version a2.version with hv | hv | hv
    · have h1 : ¬ a2.version ≤ a1.version := by omega
      have h2 : a1.version ≤ a2.version := by omega
      rw [if_neg h1, if_pos h2]
    · have h1 : a2.version ≤ a1.version := by omega
      have h2 : a1.version ≤ a2.version := by omega
      rw [if_pos h1, if_pos h2, heqc hv]
    · have h1 : a2.version ≤ a1.version := by omega
      have h2 : ¬ a1.version ≤ a2.version := by omega
      rw [if_pos h1, if_neg h2]
  | some c =>
    rw [applyKV_some c a1, applyKV_some c a2]
    by_cases hca1 : a1.version ≤ c.version
    · by_cases hca2 : a2.version ≤ c.version
      · rw [if_pos hca1, if_pos hca2, applyKV_some, applyKV_some,
          if_pos hca2, if_pos hca1]
      · have h1 : a1.version ≤ a2.version := by omega
        rw [if_pos hca1, if_neg hca2, applyKV_some, applyKV_some,
          if_neg hca2, if_pos h1]
    · by_cases hca2 : a2.version ≤ c.version
      · have h1 : a2.version ≤ a1.version := by omega
        rw [if_neg hca1, if_pos hca2, applyKV_some, applyKV_some,
          if_pos h1, if_neg hca1]
      · rw [if_neg hca1, if_neg hca2, applyKV_some, applyKV_some]
        rcases Nat.lt_trichotomy a1.version a2.version with hv | hv | hv
        · have h1 : ¬ a2.version ≤ a1.version := by omega
          have h2 : a1.version ≤ a2.version := by omega
          rw [if_neg h1, if_pos h2]
        · have h1 : a2.version ≤ a1.version := by omega
          have h2 : a1.version ≤ a2.version := by omega
          rw [if_pos h1, if_pos h2, heqc hv]
        · have h1 : a2.version ≤ a1.version := by omega
          have h2 : ¬ a1.version ≤ a2.version := by omega
          rw [if_pos h1, if_neg h2]

theorem pick_comm (o : Option VersionedValue) (l1 l2 : List VersionedValue)
    (h1 : List.Pairwise (fun a b => a.version < b.version) l1)
    (h2 : List.Pairwise (fun a b => a.version < b.version) l2)
    (hc : ∀ a ∈ l1, ∀ b ∈ l2, a.version = b.version → a = b) :
    pick (pick o l1) l2 = pick (pick o l2) l1 := by
  cases l1 with
  | nil => rfl
  | cons x1 xs1 =>
    cases l2 with
    | nil => rfl
    | cons x2 xs2 =>
      have hne1 : x1 :: xs1 ≠ [] := by simp
      have hne2 : x2 :: xs2 ≠ [] := by simp
      rw [pick_eq_applyKV_getLast _ hne1 o h1,
        pick_eq_applyKV_getLast _ hne2 _ h2,
        pick_eq_applyKV_getLast _ hne2 o h2,
        pick_eq_applyKV_getLast _ hne1 _ h1]
      exact applyKV_comm o _ _
        (hc _ (List.getLast_mem hne1) _ (List.getLast_mem hne2))

theorem alookup_applyKVStep (ns : NodeState) (key : String)
    (vv : VersionedValue) (k : String) :
    alookup (ClusterState.applyKVStep ns key vv).key_values k =
      if key = k then applyKV (alookup ns.key_values k) vv
      else alookup ns.key_values k := by
  simp only [ClusterState.applyKVStep]
  by_cases hk : key = k
  · subst hk
    cases hl : alookup ns.key_values key with
    | some record =>
      simp only [hl]
      by_cases hv : vv.version ≤ record.version
      · simp [hv, hl, applyKV_some]
      · simp [hv, hl, alookup_upsert, applyKV_some]
    | none =>
      simp only [hl]
      simp [hl, alookup_upsert, applyKV_none]
  · cases hl : alookup ns.key_values key with
    | some record =>
      simp only [hl]
      by_cases hv : vv.version ≤ record.version
      · simp [hv, hk]
      · simp [hv, alookup_upsert, hk]
    | none =>
      simp only [hl]
      simp [alookup_upsert, hk]

theorem lookup_applyNodeDelta (l : NodeDelta) :
    ∀ (ns : NodeState) (k : String),
      alookup (ClusterState.applyNodeDelta ns l).key_values k =
        pick (alookup ns.key_values k)
          ((l.filter (fun p => p.1 = k)).map Prod.snd) := by
  induction l with
  | nil => intro ns k; rfl
  | cons q rest ih =>
    intro ns k
    show alookup (ClusterState.applyNodeDelta
        (ClusterState.applyKVStep ns q.1 q.2) rest).key_values k = _
    rw [ih, alookup_applyKVStep]
    by_cases hk : q.1 = k
    · rw [if_pos hk]
      have hfil : (q :: rest).filter (fun p => p.1 = k)
          = q :: rest.filter (fun p => p.1 = k) := by
        simp [List.filter_cons, hk]
      rw [hfil, List.map_cons, pick_cons]
    · rw [if_neg hk]
      have hfil : (q :: rest).filter (fun p => p.1 = k)
          = rest.filter (fun p => p.1 = k) := by
        simp [List.filter_cons, hk]
      rw [hfil]

theorem applyNodeDelta_append (ns : NodeState) (l1 l2 : NodeDelta) :
    ClusterState.applyNodeDelta ns (l1 ++ l2) =
      ClusterState.applyNodeDelta (ClusterState.applyNodeDelta ns l1) l2 :=
  List.foldl_append _ _ _ _

theorem lookup_applyDelta_fold (l : List (NodeId × NodeDelta)) :
    ∀ (m : List (NodeId × NodeState)) (n : NodeId),
      alookup (l.foldl
        (fun m p =>
          let ns := (alookup m p.1).getD default
          upsert m p.1 (ClusterState.applyNodeDelta ns p.2)) m) n
      = ((l.filter (fun p => p.1 = n)).map Prod.snd).foldl applyOptNode
          (alookup m n) := by
  induction l with
  | nil => intro m n; rfl
  | cons p rest ih =>
    intro m n
    show alookup (rest.foldl _
      (upsert m p.1 (ClusterState.applyNodeDelta
        ((alookup m p.1).getD default) p.2))) n = _
    rw [ih]
    by_cases hk : p.1 = n
    · have hfil : (p :: rest).filter (fun q => q.1 = n)
          = p :: rest.filter (fun q => q.1 = n) := by
        simp [List.filter_cons, hk]
      rw [hfil, List.map_cons]
      show _ = List.foldl applyOptNode
        (applyOptNode (alookup m n) p.2) _
      congr 1
      rw [alookup_upsert, if_pos hk, hk]
      rfl
    · have hfil : (p :: rest).filter (fun q => q.1 = n)
          = rest.filter (fun q => q.1 = n) := by
        simp [List.filter_cons, hk]
      rw [hfil]
      congr 1
      rw [alookup_upsert, if_neg hk]

theorem foldl_applyOptNode_some (L : List NodeDelta) :
    ∀ ns : NodeState, L.foldl applyOptNode (some ns)
      = some (ClusterState.applyNodeDelta ns L.flatten) := by
  induction L with
  | nil => intro ns; rfl
  | cons nd rest ih =>
    intro ns
    show rest.foldl applyOptNode (applyOptNode (some ns) nd) = _
    have h1 : applyOptNode (some ns) nd
        = some (ClusterState.applyNodeDelta ns nd) := rfl
    rw [h1, ih]
    show _ = some (ClusterState.applyNodeDelta ns (nd ++ rest.flatten))
    rw [applyNodeDelta_append]

theorem foldl_applyOptNode_none (L : List NodeDelta) (hne : L ≠ []) :
    L.foldl applyOptNode none
      = some (ClusterState.applyNodeDelta default L.flatten) := by
  cases L with
  | nil => exact absurd rfl hne
  | cons nd rest =>
    show rest.foldl applyOptNode (applyOptNode none nd) = _
    have h1 : applyOptNode none nd
        = some (ClusterState.applyNodeDelta default nd) := rfl
    rw [h1, foldl_applyOptNode_some]
    show _ = some (ClusterState.applyNodeDelta default (nd ++ rest.flatten))
    rw [applyNodeDelta_append]

theorem node_state_apply_delta (s : ClusterState) (d : Delta) (n : NodeId) :
    (s.apply_delta d).node_state n =
      if d.node_deltas.filter (fun p => p.1 = n) = []
      then (if n ∈ d.nodes_to_reset then none else s.node_state n)
      else some (ClusterState.applyNodeDelta
        ((if n ∈ d.nodes_to_reset then none
          else s.node_state n).getD default)
        (kvsFor d n)) := by
  show alookup (d.node_deltas.foldl
      (fun m p =>
        let ns := (alookup m p.1).getD default
        upsert m p.1 (ClusterState.applyNodeDelta ns p.2))
      (s.node_states.filter
        (fun p => !(d.nodes_to_reset.contains p.1)))) n = _
  rw [lookup_applyDelta_fold]
  have hbase : alookup (s.node_states.filter
      (fun p => !(d.nodes_to_reset.contains p.1))) n =
      (if n ∈ d.nodes_to_reset then none else s.node_state n) := by
    rw [alookup_filter_key (fun a => !(d.nodes_to_reset.contains a))
      s.node_states n]
    by_cases hn : n ∈ d.nodes_to_reset
    · rw [if_pos hn]
      rw [(contains_iff_mem d.nodes_to_reset n).2 hn]
      rfl
    · rw [if_neg hn]
      have hc : d.nodes_to_reset.contains n = false := by
        rcases Bool.eq_false_or_eq_true (d.nodes_to_reset.contains n)
          with hb | hb
        · exact absurd ((contains_iff_mem _ _).1 hb) hn
        · exact hb
      rw [hc]
      rfl
  rw [hbase]
  cases hfil : d.node_deltas.filter (fun p => p.1 = n) with
  | nil =>
    rw [if_pos rfl]
    rfl
  | cons q qs =>
    rw [if_neg (List.cons_ne_nil q qs)]
    have hkvs : kvsFor d n = ((q :: qs).map Prod.snd).flatten := by
      unfold kvsFor
      rw [hfil, List.flatMap_def]
    cases hb : (if n ∈ d.nodes_to_reset then none else s.node_state n) with
    | none =>
      rw [foldl_applyOptNode_none _ (by simp), hkvs]
      rfl
    | some ns =>
      rw [foldl_applyOptNode_some, hkvs]
      rfl

theorem foldr_max_shift (b : Nat) (l : List Nat) :
    l.foldr max b = max (l.foldr max 0) b := by
  induction l with
  | nil => simp
  | cons a l ih =>
    show max a (l.foldr max b) = max (max a (l.foldr max 0)) b
    rw [ih, Nat.max_assoc]

theorem listMaxVersion_append (l1 l2 : NodeDelta) :
    listMaxVersion (l1 ++ l2)
      = max (listMaxVersion l1) (listMaxVersion l2) := by
  unfold listMaxVersion
  rw [List.map_append, List.foldr_append, foldr_max_shift]

theorem nsequiv_refl (a : NodeState) : NSEquiv a a := ⟨rfl, fun _ => rfl⟩

theorem mem_map_fst_of_filter_ne {l : List (NodeId × NodeDelta)}
    {n : NodeId} (h : l.filter (fun p => p.1 = n) ≠ []) :
    n ∈ l.map Prod.fst := by
  obtain ⟨p, hp⟩ := List.exists_mem_of_ne_nil _ h
  have hp2 := List.mem_filter.1 hp
  have hpk : p.1 = n := by simpa using hp2.2
  exact hpk ▸ List.mem_map.2 ⟨p, hp2.1, rfl⟩

theorem applyNodeDelta_comm_equiv (ns : NodeState) (K1 K2 : NodeDelta)
    (h1 : List.Pairwise (fun p q => p.2.version < q.2.version) K1)
    (h2 : List.Pairwise (fun p q => p.2.version < q.2.version) K2)
    (hc : ∀ p ∈ K1, ∀ q ∈ K2,
      p.1 = q.1 → p.2.version = q.2.version → p.2 = q.2) :
    NSEquiv (ClusterState.applyNodeDelta ns (K1 ++ K2))
            (ClusterState.applyNodeDelta ns (K2 ++ K1)) := by
  constructor
  · rw [applyNodeDelta_max, applyNodeDelta_max, listMaxVersion_append,
      listMaxVersion_append, Nat.max_comm (listMaxVersion K1)]
  · intro k
    rw [lookup_applyNodeDelta, lookup_applyNodeDelta,
      List.filter_append, List.filter_append,
      List.map_append, List.map_append, pick_append, pick_append]
    apply pick_comm
    · exact List.pairwise_map.2 (h1.sublist (List.filter_sublist _))
    · exact List.pairwise_map.2 (h2.sublist (List.filter_sublist _))
    · intro a ha b hb hv
      obtain ⟨p, hp, rfl⟩ := List.mem_map.1 ha
      obtain ⟨q, hq, rfl⟩ := List.mem_map.1 hb
      have hp2 := List.mem_filter.1 hp
      have hq2 := List.mem_filter.1 hq
      have hpk : p.1 = k := by simpa using hp2.2
      have hqk : q.1 = k := by simpa using hq2.2
      exact hc p hp2.1 q hq2.1 (hpk.trans hqk.symm) hv

/-- C7 counterexample: two internally consistent (version-ascending)
deltas that carry the same version with different values for the same key
do not commute: applied to the empty state in the two orders, the stored
value at the key differs. -/
theorem apply_delta_order_counterexample :
    InternallyConsistent
      { nodes_to_reset := [],
        node_deltas := [(1, [("k",
          { value := "a", version := 5, marked_for_deletion := false })])] } ∧
    InternallyConsistent
      { nodes_to_reset := [],
        node_deltas := [(1, [("k",
          { value := "b", version := 5, marked_for_deletion := false })])] } ∧
    ((({ node_states := [] } : ClusterState).apply_delta
        { nodes_to_reset := [],
          node_deltas := [(1, [("k",
            { value := "a", version := 5,
              marked_for_deletion := false })])] }).apply_delta
        { nodes_to_reset := [],
          node_deltas := [(1, [("k",
            { value := "b", version := 5,
              marked_for_deletion := false })])] }).node_state 1
      = some ({ max_version := 5, key_values := [("k",
          { value := "a", version := 5,
            marked_for_deletion := false })] } : NodeState) ∧
    ((({ node_states := [] } : ClusterState).apply_delta
        { nodes_to_reset := [],
          node_deltas := [(1, [("k",
            { value := "b", version := 5,
              marked_for_deletion := false })])] }).apply_delta
        { nodes_to_reset := [],
          node_deltas := [(1, [("k",
            { value := "a", version := 5,
              marked_for_deletion := false })])] }).node_state 1
      = some ({ max_version := 5, key_values := [("k",
          { value := "b", version := 5,
            marked_for_deletion := false })] } : NodeState) :=
  ⟨by decide, by decide, by decide, by decide⟩

/-- C7 (amended): delta application is order-insensitive — applying `D1`
then `D2` yields the same state (extensionally) as `D2` then `D1` —
provided each delta is internally consistent (version-ascending per
node), neither delta resets a node, and the deltas agree on any entry
they both carry for the same node, key and version. -/
theorem apply_delta_order_insensitive (s : ClusterState) (d1 d2 : Delta)
    (h1 : InternallyConsistent d1) (h2 : InternallyConsistent d2)
    (hc : Compatible d1 d2)
    (hr1 : d1.nodes_to_reset = []) (hr2 : d2.nodes_to_reset = []) :
    CSEquiv ((s.apply_delta d1).apply_delta d2)
            ((s.apply_delta d2).apply_delta d1) := by
  intro n
  have hmem : ∀ (o : Option NodeState),
      (if n ∈ ([] : List NodeId) then none else o) = o :=
    fun o => if_neg (List.not_mem_nil n)
  rw [node_state_apply_delta, node_state_apply_delta,
    node_state_apply_delta, node_state_apply_delta, hr1, hr2]
  simp only [hmem]
  by_cases hf1 : d1.node_deltas.filter (fun p => p.1 = n) = []
  · by_cases hf2 : d2.node_deltas.filter (fun p => p.1 = n) = []
    · simp only [hf1, hf2, eq_self_iff_true, if_true]
      cases hL : s.node_state n with
      | none => exact Or.inl ⟨rfl, rfl⟩
      | some a => exact Or.inr ⟨a, a, rfl, rfl, nsequiv_refl a⟩
    · simp only [hf1, hf2, eq_self_iff_true, if_true, if_false]
      exact Or.inr ⟨_, _, rfl, rfl, nsequiv_refl _⟩
  · by_cases hf2 : d2.node_deltas.filter (fun p => p.1 = n) = []
    · simp only [hf1, hf2, eq_self_iff_true, if_true, if_false]
      exact Or.inr ⟨_, _, rfl, rfl, nsequiv_refl _⟩
    · simp only [hf1, hf2, if_false, Option.getD_some]
      rw [← applyNodeDelta_append, ← applyNodeDelta_append]
      refine Or.inr ⟨_, _, rfl, rfl, ?_⟩
      exact applyNodeDelta_comm_equiv _ (kvsFor d1 n) (kvsFor d2 n)
        (h1 n (mem_map_fst_of_filter_ne hf1))
        (h2 n (mem_map_fst_of_filter_ne hf2))
        (hc n (mem_map_fst_of_filter_ne hf1))

/-- C7 witness: the amended theorem applied to two compatible one-entry
deltas over the empty state. -/
theorem apply_delta_order_insensitive_witness :
    CSEquiv
      ((({ node_states := [] } : ClusterState).apply_delta
          { nodes_to_reset := [],
            node_deltas := [(1, [("x",
              { value := "1", version := 1,
                marked_for_deletion := false })])] }).apply_delta
          { nodes_to_reset := [],
            node_deltas := [(1, [("y",
              { value := "2", version := 2,
                marked_for_deletion := false })])] })
      ((({ node_states := [] } : ClusterState).apply_delta
          { nodes_to_reset := [],
            node_deltas := [(1, [("y",
              { value := "2", version := 2,
                marked_for_deletion := false })])] }).apply_delta
          { nodes_to_reset := [],
            node_deltas := [(1, [("x",
              { value := "1", version := 1,
                marked_for_deletion := false })])] }) :=
  apply_delta_order_insensitive { node_states := [] } _ _
    (by decide) (by decide) (by decide) rfl rfl

end Chitchat
